import Mathlib

/-!
Verification of the `espalier` flattened-tree container (src/lib.rs, src/tests.rs).

The Rust code stores a tree (or forest) as a flat arena of nodes in pre-order,
each node carrying its `parent` index and `num_descendants` count, plus a
construction-time `parent_stack`.  The opaque key type `K` is required to be
losslessly interconvertible with `usize`, so indices are modelled directly as
`Nat`.  `Vec` pushes/pops at its end; here the head of `parent_stack` is the
top of the stack (Rust's `last()`).
-/

set_option linter.unusedVariables false

namespace Espalier

/-- An element of the arena (`Node<K, V>` in src/lib.rs). -/
structure Node (V : Type) where
  value : V
  parent : Nat
  num_descendants : Nat
deriving DecidableEq, Repr

/-- A flattened tree (`Tree<K, V>` in src/lib.rs): the arena plus the
construction-time parent stack (list head = stack top). -/
structure Tree (V : Type) where
  nodes : List (Node V)
  parent_stack : List Nat
deriving DecidableEq, Repr

variable {V : Type}

/-- Rust `Tree::len`. -/
def Tree.len (t : Tree V) : Nat := t.nodes.length

/-- Rust `Tree::get`: bounds-checked lookup. -/
def Tree.get (t : Tree V) (id : Nat) : Option (Node V) := t.nodes[id]?

/-- The stored descendant count at `id`, defaulting to `0` out of bounds
(the `.map(...).unwrap_or_default()` idiom of the source). -/
def ndf (t : Tree V) (id : Nat) : Nat :=
  ((t.get id).map Node.num_descendants).getD 0

/-- The stored parent index at `id` (meaningful for `id < t.len`). -/
def parf (t : Tree V) (id : Nat) : Nat :=
  ((t.get id).map Node.parent).getD id

/-- One descendant-count bump (the `+= 1` inside `Tree::push`). -/
def incrDesc (n : Node V) : Node V :=
  { n with num_descendants := n.num_descendants + 1 }

/-- Apply `f` to the element at position `i` of a list, in place.  Out of
range it is the identity; the construction protocol only ever passes stack
entries, which are valid indices (`BuildInv.stack_lt`), matching the
always-in-bounds `self.nodes[parent]` of the source. -/
def modifyNth (f : α → α) : Nat → List α → List α
  | _, [] => []
  | 0, a :: l => f a :: l
  | n+1, a :: l => a :: modifyNth f n l

/-- Rust `Tree::push` (src/lib.rs:120-138): append a node whose parent is the top
of the parent stack (itself when the stack is empty), bump the descendant
count of every open ancestor on the stack, push the new index on the stack
and return it.  The source's loop runs bottom-to-top of the stack; the
increments target distinct indices, so folding top-to-bottom yields the same
arena. -/
def Tree.push (t : Tree V) (v : V) : Tree V × Nat :=
  let id := t.len
  let appended :=
    t.nodes ++ [{ value := v, parent := t.parent_stack.head?.getD id, num_descendants := 0 }]
  let bumped := t.parent_stack.foldl (fun ns p => modifyNth incrDesc p ns) appended
  ({ nodes := bumped, parent_stack := id :: t.parent_stack }, id)

/-- Rust `Tree::up` (src/lib.rs:149-151): `self.parent_stack.pop().map(Into::into)`.
`Vec::pop` removes and returns the last element (the stack top, our list
head). -/
def Tree.up (t : Tree V) : Tree V × Option Nat :=
  match t.parent_stack with
  | [] => (t, none)
  | p :: rest => ({ t with parent_stack := rest }, some p)

/-- Rust slice indexing `&l[start..stop]`: defined (`some`) exactly when
`start ≤ stop ∧ stop ≤ l.length`; `none` models the out-of-range panic. -/
def slice (l : List α) (start stop : Nat) : Option (List α) :=
  if start ≤ stop ∧ stop ≤ l.length then some ((l.drop start).take (stop - start)) else none

/-- Rust `Tree::descendents` (src/lib.rs:210-218): the slice
`&self.nodes[id+1 .. id+1+num_descendants]`. -/
def Tree.descendents (t : Tree V) (id : Nat) : Option (List (Node V)) :=
  slice t.nodes (id + 1) (id + 1 + ndf t id)

/-- One `ParentIter::next` step (src/lib.rs:280-292). -/
def parentStep (t : Tree V) (id : Nat) : Option (Nat × Node V) :=
  (t.get id).bind fun node =>
    if node.parent = id then none
    else (t.get node.parent).map fun pn => (node.parent, pn)

/-- The sequence produced by repeated `ParentIter::next` calls up to the
first `none`, with explicit fuel for the lazy walk. -/
def parentsAux (t : Tree V) : Nat → Nat → List (Nat × Node V)
  | 0, _ => []
  | fuel+1, id =>
    match parentStep t id with
    | none => []
    | some (pid, pn) => (pid, pn) :: parentsAux t fuel pid

/-- Rust `Tree::parents` (src/lib.rs:221-224): the ancestor walk from `id`.
Whenever the walk terminates it visits pairwise distinct indices, so
`t.len + 1` fuel reproduces the full sequence (this is proved where the
claims need it). -/
def Tree.parents (t : Tree V) (id : Nat) : List (Nat × Node V) :=
  parentsAux t (t.len + 1) id

/-- The sequence produced by repeated `ChildrenIter::next` calls
(src/lib.rs:307-322): while `cur ≤ maxId`, emit the node at `cur` (a missing
node ends the iteration) and jump the cursor past its whole subtree. -/
def childrenAux (t : Tree V) (maxId : Nat) : Nat → Nat → List (Nat × Node V)
  | 0, _ => []
  | fuel+1, cur =>
    if cur ≤ maxId then
      match t.get cur with
      | none => []
      | some n => (cur, n) :: childrenAux t maxId fuel (cur + n.num_descendants + 1)
    else []

/-- Rust `Tree::children` (src/lib.rs:227-239): the descendant-count jump
enumeration of immediate children.  The cursor strictly increases and the
iteration stops once it passes `maxId` or leaves the arena, so `t.len + 1`
fuel reproduces the full sequence. -/
def Tree.children (t : Tree V) (id : Nat) : List (Nat × Node V) :=
  childrenAux t (id + ndf t id) (t.len + 1) (id + 1)

/-- A construction-protocol call. -/
inductive Op (V : Type) where
  | push (v : V)
  | up
deriving Repr

/-- Instrumented construction state: the tree together with, for each node in
push order, the parent stack captured at the moment of that node's push — its
construction-time ancestor chain, nearest ancestor first. -/
structure BState (V : Type) where
  tree : Tree V
  trace : List (List Nat)

/-- Run one construction call, recording the stack snapshot on `push`. -/
def BState.applyOp (s : BState V) : Op V → BState V
  | .push v => ⟨(s.tree.push v).1, s.trace ++ [s.tree.parent_stack]⟩
  | .up => ⟨(s.tree.up).1, s.trace⟩

/-- The instrumented state reached from the empty tree by a call sequence. -/
def buildT (ops : List (Op V)) : BState V := ops.foldl BState.applyOp ⟨⟨[], []⟩, []⟩

/-- The tree reached from the empty tree (`Tree::new`) by a call sequence. -/
def build (ops : List (Op V)) : Tree V := (buildT ops).tree

/-- Construction-time ancestor chain of node `j`, nearest ancestor first. -/
def traceAt (s : BState V) (j : Nat) : List Nat := s.trace.getD j []

/-- Specification-side children list: the descendant block
`[id+1, id+1+descendant_count)` filtered to nodes whose `parent` is `id`,
paired with their indices. -/
def specChildren (t : Tree V) (id : Nat) : List (Nat × Node V) :=
  (List.range' (id + 1) (ndf t id)).filterMap fun j =>
    if parf t j = id then (t.get j).map (fun n => (j, n)) else none

/-- The parent chain starting at `id` reaches, within `n` steps, a node whose
parent is itself (a root) or an index outside the arena. -/
def stopsWithin (t : Tree V) : Nat → Nat → Bool
  | 0, _ => false
  | n+1, id =>
    match t.get id with
    | none => true
    | some node => node.parent = id || stopsWithin t n node.parent

/-- Number of occurrences of `j` in a list of indices. -/
def countNat (j : Nat) : List Nat → Nat
  | [] => 0
  | p :: rest => (if p = j then 1 else 0) + countNat j rest

/-- Add `k` to a node's descendant count. -/
def addDesc (k : Nat) (n : Node V) : Node V :=
  { n with num_descendants := n.num_descendants + k }

/-- The node appended by `Tree::push`. -/
def newNode (t : Tree V) (v : V) : Node V :=
  { value := v, parent := t.parent_stack.head?.getD t.len, num_descendants := 0 }

theorem length_modifyNth (f : α → α) (i : Nat) (l : List α) :
    (modifyNth f i l).length = l.length := by
  induction l generalizing i with
  | nil => cases i <;> rfl
  | cons a l ih => cases i <;> simp [modifyNth, ih]

theorem getElem?_modifyNth (f : α → α) (i j : Nat) (l : List α) :
    (modifyNth f i l)[j]? = if i = j then l[j]?.map f else l[j]? := by
  induction l generalizing i j with
  | nil => cases i <;> simp [modifyNth]
  | cons a l ih =>
    cases i with
    | zero => cases j <;> simp [modifyNth]
    | succ i => cases j with
      | zero => simp [modifyNth]
      | succ j => simpa [modifyNth, Nat.succ_inj'] using ih i j

theorem addDesc_zero (n : Node V) : addDesc 0 n = n := by
  simp [addDesc]

theorem addDesc_incr (k : Nat) (n : Node V) :
    addDesc k (incrDesc n) = addDesc (1 + k) n := by
  simp only [addDesc, incrDesc]
  congr 1
  omega

theorem length_foldl_modify (st : List Nat) (ns : List (Node V)) :
    (st.foldl (fun ns p => modifyNth incrDesc p ns) ns).length = ns.length := by
  induction st generalizing ns with
  | nil => rfl
  | cons p rest ih => rw [List.foldl_cons, ih, length_modifyNth]

theorem getElem?_foldl_modify (st : List Nat) (ns : List (Node V)) (j : Nat) :
    (st.foldl (fun ns p => modifyNth incrDesc p ns) ns)[j]?
      = ns[j]?.map (addDesc (countNat j st)) := by
  induction st generalizing ns with
  | nil => cases h : ns[j]? <;> simp [countNat, h, addDesc_zero]
  | cons p rest ih =>
    rw [List.foldl_cons, ih, getElem?_modifyNth]
    by_cases hpj : p = j
    · subst hpj
      cases h : ns[p]? <;> simp [countNat, h, Option.map_map, addDesc_incr, Function.comp]
    · simp [countNat, hpj]

theorem push_len (t : Tree V) (v : V) : (t.push v).1.len = t.len + 1 := by
  simp [Tree.push, Tree.len, length_foldl_modify]

theorem push_snd (t : Tree V) (v : V) : (t.push v).2 = t.len := rfl

theorem push_stack (t : Tree V) (v : V) :
    (t.push v).1.parent_stack = t.len :: t.parent_stack := rfl

theorem push_get (t : Tree V) (v : V) (j : Nat) :
    (t.push v).1.get j
      = (t.nodes ++ [newNode t v])[j]?.map (addDesc (countNat j t.parent_stack)) := by
  simp [Tree.push, Tree.get, getElem?_foldl_modify, newNode, Tree.len]

theorem push_get_lt (t : Tree V) (v : V) (j : Nat) (h : j < t.len) :
    (t.push v).1.get j = (t.get j).map (addDesc (countNat j t.parent_stack)) := by
  rw [push_get, List.getElem?_append_left h]
  rfl

theorem push_get_new (t : Tree V) (v : V) :
    (t.push v).1.get t.len = some (addDesc (countNat t.len t.parent_stack) (newNode t v)) := by
  rw [push_get]
  have : (t.nodes ++ [newNode t v])[t.len]? = some (newNode t v) :=
    List.getElem?_concat_length t.nodes (newNode t v)
  rw [this]
  rfl

theorem push_get_gt (t : Tree V) (v : V) (j : Nat) (h : t.len < j) :
    (t.push v).1.get j = none := by
  rw [push_get, List.getElem?_eq_none]
  · rfl
  · simp [Tree.len] at h ⊢
    omega

theorem up_nodes (t : Tree V) : (t.up).1.nodes = t.nodes := by
  cases h : t.parent_stack <;> simp [Tree.up, h]

theorem up_stack (t : Tree V) : (t.up).1.parent_stack = t.parent_stack.tail := by
  cases h : t.parent_stack <;> simp [Tree.up, h]

theorem up_snd (t : Tree V) : (t.up).2 = t.parent_stack.head? := by
  cases h : t.parent_stack <;> simp [Tree.up, h]

theorem countNat_eq_zero_of_not_mem {j : Nat} {st : List Nat} (h : j ∉ st) :
    countNat j st = 0 := by
  induction st with
  | nil => rfl
  | cons p rest ih =>
    simp only [List.mem_cons, not_or] at h
    simp [countNat, Ne.symm h.1, ih h.2]

theorem countNat_eq_ite {j : Nat} {st : List Nat} (hnd : st.Nodup) :
    countNat j st = if j ∈ st then 1 else 0 := by
  induction st with
  | nil => rfl
  | cons p rest ih =>
    rcases List.nodup_cons.1 hnd with ⟨hp, hrest⟩
    by_cases hpj : p = j
    · subst hpj
      simp [countNat, countNat_eq_zero_of_not_mem hp]
    · simp [countNat, hpj, ih hrest, Ne.symm hpj]

theorem nodup_of_sorted {st : List Nat} (h : st.Pairwise fun a b => b < a) :
    st.Nodup :=
  h.imp fun hab => Nat.ne_of_gt hab

/-- Every element of `l` carries, as its own recorded ancestor chain via `f`,
exactly the part of `l` strictly after it (the stack below it). -/
def SuffClosed (f : Nat → List Nat) (l : List Nat) : Prop :=
  ∀ pre a rest, l = pre ++ a :: rest → f a = rest

theorem suffClosed_nil (f : Nat → List Nat) : SuffClosed f [] := by
  intro pre a rest h
  exact absurd h (by simp)

theorem suffClosed_cons {f : Nat → List Nat} {a : Nat} {l : List Nat} :
    SuffClosed f (a :: l) ↔ f a = l ∧ SuffClosed f l := by
  constructor
  · intro h
    refine ⟨h [] a l rfl, ?_⟩
    intro pre b rest hl
    exact h (a :: pre) b rest (by rw [List.cons_append, hl])
  · rintro ⟨h1, h2⟩ pre b rest hl
    cases pre with
    | nil =>
      simp only [List.nil_append, List.cons.injEq] at hl
      rw [← hl.1, ← hl.2]
      exact h1
    | cons x pre =>
      simp only [List.cons_append, List.cons.injEq] at hl
      exact h2 pre b rest hl.2

theorem suffClosed_congr {f g : Nat → List Nat} {l : List Nat}
    (h : ∀ a ∈ l, f a = g a) (hf : SuffClosed f l) : SuffClosed g l := by
  intro pre b rest hl
  rw [← h b (by rw [hl]; simp)]
  exact hf pre b rest hl

/-- The master invariant of the instrumented construction state, preserved by
every `push` and `up` call.  `traceAt s j` is node `j`'s construction-time
ancestor chain, nearest ancestor first; an open node is one still on the
parent stack. -/
structure BuildInv (s : BState V) : Prop where
  /-- One stack snapshot was recorded per node. -/
  trace_len : s.trace.length = s.tree.len
  /-- All recorded ancestors of a node precede it in the arena. -/
  trace_lt : ∀ j a, a ∈ traceAt s j → a < j
  /-- A node `i` is a recorded ancestor of `j` exactly when `j` lies in `i`'s
  descendant block `(i, i + num_descendants i]`. -/
  mem_trace : ∀ i j, i ∈ traceAt s j ↔ j < s.tree.len ∧ i < j ∧ j ≤ i + ndf s.tree i
  /-- Stack entries are valid indices. -/
  stack_lt : ∀ a ∈ s.tree.parent_stack, a < s.tree.len
  /-- An open node's descendant block reaches the end of the arena. -/
  stack_open : ∀ a ∈ s.tree.parent_stack, a + 1 + ndf s.tree a = s.tree.len
  /-- Every node's descendant block stays inside the arena. -/
  range_le : ∀ i, i < s.tree.len → i + 1 + ndf s.tree i ≤ s.tree.len
  /-- The stack decreases strictly from top (list head) to bottom. -/
  stack_sorted : s.tree.parent_stack.Pairwise fun a b => b < a
  /-- Each recorded chain decreases strictly, nearest ancestor first. -/
  trace_sorted : ∀ j, (traceAt s j).Pairwise fun a b => b < a
  /-- A node's stored parent is the nearest recorded ancestor, itself for a
  root. -/
  par_head : ∀ j, j < s.tree.len → parf s.tree j = (traceAt s j).head?.getD j
  /-- Below any open node the stack is exactly that node's own chain. -/
  stack_suffix : SuffClosed (traceAt s) s.tree.parent_stack
  /-- Below any entry of a recorded chain the chain is that entry's own chain. -/
  trace_suffix : ∀ j, SuffClosed (traceAt s) (traceAt s j)

theorem traceAt_push_lt (s : BState V) (v : V) (hlen : s.trace.length = s.tree.len)
    {j : Nat} (h : j < s.tree.len) :
    traceAt (s.applyOp (.push v)) j = traceAt s j := by
  simp only [traceAt, BState.applyOp]
  rw [List.getD_append]
  omega

theorem traceAt_push_new (s : BState V) (v : V) (hlen : s.trace.length = s.tree.len) :
    traceAt (s.applyOp (.push v)) s.tree.len = s.tree.parent_stack := by
  simp only [traceAt, BState.applyOp]
  rw [List.getD_append_right _ _ _ _ (by omega), hlen]
  simp

theorem traceAt_push_gt (s : BState V) (v : V) (hlen : s.trace.length = s.tree.len)
    {j : Nat} (h : s.tree.len < j) :
    traceAt (s.applyOp (.push v)) j = [] := by
  simp only [traceAt, BState.applyOp]
  rw [List.getD_eq_default]
  simp only [List.length_append, List.length_cons, List.length_nil]
  omega

theorem traceAt_up (s : BState V) (j : Nat) :
    traceAt (s.applyOp .up) j = traceAt s j := rfl

theorem get_some_of_lt (t : Tree V) {j : Nat} (h : j < t.len) :
    ∃ n, t.get j = some n := by
  refine ⟨t.nodes[j], ?_⟩
  exact List.getElem?_eq_getElem h

theorem ndf_oob (t : Tree V) {j : Nat} (h : t.len ≤ j) : ndf t j = 0 := by
  simp [ndf, Tree.get, List.getElem?_eq_none (l := t.nodes) h]

theorem ndf_push_lt (t : Tree V) (v : V) {j : Nat} (h : j < t.len) :
    ndf (t.push v).1 j = ndf t j + countNat j t.parent_stack := by
  obtain ⟨n, hn⟩ := get_some_of_lt t h
  simp [ndf, push_get_lt t v j h, hn, addDesc]

theorem parf_push_lt (t : Tree V) (v : V) {j : Nat} (h : j < t.len) :
    parf (t.push v).1 j = parf t j := by
  obtain ⟨n, hn⟩ := get_some_of_lt t h
  simp [parf, push_get_lt t v j h, hn, addDesc]

theorem value_push_lt (t : Tree V) (v : V) {j : Nat} (h : j < t.len) :
    ((t.push v).1.get j).map Node.value = (t.get j).map Node.value := by
  obtain ⟨n, hn⟩ := get_some_of_lt t h
  simp [push_get_lt t v j h, hn, addDesc]

theorem ndf_push_new (t : Tree V) (v : V) :
    ndf (t.push v).1 t.len = countNat t.len t.parent_stack := by
  simp [ndf, push_get_new, addDesc, newNode]

theorem parf_push_new (t : Tree V) (v : V) :
    parf (t.push v).1 t.len = t.parent_stack.head?.getD t.len := by
  simp [parf, push_get_new, addDesc, newNode]

theorem ndf_push_gt (t : Tree V) (v : V) {j : Nat} (h : t.len < j) :
    ndf (t.push v).1 j = 0 := by
  simp [ndf, push_get_gt t v j h]

theorem len_up (t : Tree V) : (t.up).1.len = t.len := by
  rw [Tree.len, up_nodes]
  rfl

theorem get_up (t : Tree V) (j : Nat) : (t.up).1.get j = t.get j := by
  rw [Tree.get, up_nodes]
  rfl

theorem ndf_up (t : Tree V) (j : Nat) : ndf (t.up).1 j = ndf t j := by
  rw [ndf, get_up]
  rfl

theorem parf_up (t : Tree V) (j : Nat) : parf (t.up).1 j = parf t j := by
  rw [parf, get_up]
  rfl

theorem inv_push (s : BState V) (h : BuildInv s) (v : V) :
    BuildInv (s.applyOp (.push v)) := by
  have hnd : s.tree.parent_stack.Nodup := nodup_of_sorted h.stack_sorted
  have hnotmem : s.tree.len ∉ s.tree.parent_stack := fun hm =>
    absurd (h.stack_lt _ hm) (by omega)
  have htree : (s.applyOp (.push v)).tree = (s.tree.push v).1 := rfl
  have hndf_lt : ∀ j, j < s.tree.len →
      ndf (s.tree.push v).1 j = ndf s.tree j + (if j ∈ s.tree.parent_stack then 1 else 0) := by
    intro j hj
    rw [ndf_push_lt s.tree v hj, countNat_eq_ite hnd]
  have hndf_new : ndf (s.tree.push v).1 s.tree.len = 0 := by
    rw [ndf_push_new, countNat_eq_zero_of_not_mem hnotmem]
  have hlen' : (s.tree.push v).1.len = s.tree.len + 1 := push_len s.tree v
  refine ⟨?_, ?_, ?_, ?_, ?_, ?_, ?_, ?_, ?_, ?_, ?_⟩
  · -- trace_len
    simp only [BState.applyOp, List.length_append, List.length_cons, List.length_nil,
      h.trace_len, hlen']
  · -- trace_lt
    intro j a ha
    rcases Nat.lt_trichotomy j s.tree.len with hj | hj | hj
    · rw [traceAt_push_lt s v h.trace_len hj] at ha
      exact h.trace_lt j a ha
    · subst hj
      rw [traceAt_push_new s v h.trace_len] at ha
      exact h.stack_lt a ha
    · rw [traceAt_push_gt s v h.trace_len hj] at ha
      exact absurd ha (List.not_mem_nil a)
  · -- mem_trace
    intro i j
    rw [htree, hlen']
    rcases Nat.lt_trichotomy j s.tree.len with hj | hj | hj
    · rw [traceAt_push_lt s v h.trace_len hj, h.mem_trace i j]
      by_cases hi : i < s.tree.len
      · have hndfi := hndf_lt i hi
        by_cases him : i ∈ s.tree.parent_stack
        · have hopen := h.stack_open i him
          rw [if_pos him] at hndfi
          omega
        · rw [if_neg him] at hndfi
          omega
      · have h1 : ndf s.tree i = 0 := ndf_oob s.tree (by omega)
        have h2 : ndf (s.tree.push v).1 i = 0 := by
          rcases Nat.eq_or_lt_of_le (Nat.le_of_not_lt hi) with he | hgt
          · rw [he] at hndf_new
            exact hndf_new
          · exact ndf_push_gt s.tree v hgt
        omega
    · subst hj
      rw [traceAt_push_new s v h.trace_len]
      constructor
      · intro him
        have hi := h.stack_lt i him
        have hopen := h.stack_open i him
        have hndfi := hndf_lt i hi
        rw [if_pos him] at hndfi
        omega
      · rintro ⟨-, hi, hge⟩
        by_cases him : i ∈ s.tree.parent_stack
        · exact him
        · exfalso
          have hndfi := hndf_lt i hi
          rw [if_neg him] at hndfi
          have := h.range_le i hi
          omega
    · rw [traceAt_push_gt s v h.trace_len hj]
      simp only [List.not_mem_nil, false_iff, not_and]
      intro hjl
      omega
  · -- stack_lt
    intro a ha
    rw [htree, push_stack] at ha
    rw [htree, hlen']
    rcases List.mem_cons.1 ha with rfl | ha
    · omega
    · have := h.stack_lt a ha
      omega
  · -- stack_open
    intro a ha
    rw [htree, push_stack] at ha
    rw [htree, hlen']
    rcases List.mem_cons.1 ha with rfl | ha
    · rw [hndf_new]
    · have hlt := h.stack_lt a ha
      have hopen := h.stack_open a ha
      have hndfa := hndf_lt a hlt
      rw [if_pos ha] at hndfa
      omega
  · -- range_le
    intro i hi
    rw [htree, hlen'] at hi ⊢
    rcases Nat.lt_trichotomy i s.tree.len with hlt | he | hgt
    · have hndfi := hndf_lt i hlt
      have := h.range_le i hlt
      by_cases him : i ∈ s.tree.parent_stack
      · have hopen := h.stack_open i him
        rw [if_pos him] at hndfi
        omega
      · rw [if_neg him] at hndfi
        omega
    · subst he
      rw [hndf_new]
    · omega
  · -- stack_sorted
    rw [htree, push_stack]
    exact List.pairwise_cons.2 ⟨fun b hb => h.stack_lt b hb, h.stack_sorted⟩
  · -- trace_sorted
    intro j
    rcases Nat.lt_trichotomy j s.tree.len with hj | hj | hj
    · rw [traceAt_push_lt s v h.trace_len hj]
      exact h.trace_sorted j
    · subst hj
      rw [traceAt_push_new s v h.trace_len]
      exact h.stack_sorted
    · rw [traceAt_push_gt s v h.trace_len hj]
      exact List.Pairwise.nil
  · -- par_head
    intro j hj
    rw [htree, hlen'] at hj
    rw [htree]
    rcases Nat.lt_trichotomy j s.tree.len with hlt | he | hgt
    · rw [parf_push_lt s.tree v hlt, traceAt_push_lt s v h.trace_len hlt]
      exact h.par_head j hlt
    · subst he
      rw [parf_push_new, traceAt_push_new s v h.trace_len]
    · omega
  · -- stack_suffix
    rw [htree, push_stack]
    refine suffClosed_cons.2 ⟨traceAt_push_new s v h.trace_len, ?_⟩
    refine suffClosed_congr ?_ h.stack_suffix
    intro a ha
    exact (traceAt_push_lt s v h.trace_len (h.stack_lt a ha)).symm
  · -- trace_suffix
    intro j
    rcases Nat.lt_trichotomy j s.tree.len with hj | hj | hj
    · rw [traceAt_push_lt s v h.trace_len hj]
      refine suffClosed_congr ?_ (h.trace_suffix j)
      intro a ha
      have haj := h.trace_lt j a ha
      exact (traceAt_push_lt s v h.trace_len (by omega)).symm
    · subst hj
      rw [traceAt_push_new s v h.trace_len]
      refine suffClosed_congr ?_ h.stack_suffix
      intro a ha
      exact (traceAt_push_lt s v h.trace_len (h.stack_lt a ha)).symm
    · rw [traceAt_push_gt s v h.trace_len hj]
      exact suffClosed_nil _

theorem inv_up (s : BState V) (h : BuildInv s) : BuildInv (s.applyOp .up) := by
  have htree : (s.applyOp .up).tree = (s.tree.up).1 := rfl
  have hmemtail : ∀ a ∈ s.tree.parent_stack.tail, a ∈ s.tree.parent_stack := by
    intro a ha
    exact List.mem_of_mem_tail ha
  refine ⟨?_, ?_, ?_, ?_, ?_, ?_, ?_, ?_, ?_, ?_, ?_⟩
  · simp only [BState.applyOp, htree, len_up, h.trace_len]
  · intro j a ha
    rw [traceAt_up] at ha
    exact h.trace_lt j a ha
  · intro i j
    rw [traceAt_up, htree, len_up, ndf_up]
    exact h.mem_trace i j
  · intro a ha
    rw [htree, up_stack] at ha
    rw [htree, len_up]
    exact h.stack_lt a (hmemtail a ha)
  · intro a ha
    rw [htree, up_stack] at ha
    rw [htree, len_up, ndf_up]
    exact h.stack_open a (hmemtail a ha)
  · intro i hi
    rw [htree, len_up] at hi ⊢
    rw [ndf_up]
    exact h.range_le i hi
  · rw [htree, up_stack]
    exact h.stack_sorted.tail
  · intro j
    rw [traceAt_up]
    exact h.trace_sorted j
  · intro j hj
    rw [htree, len_up] at hj
    rw [htree, parf_up, traceAt_up]
    exact h.par_head j hj
  · rw [htree, up_stack]
    have hs := h.stack_suffix
    cases hst : s.tree.parent_stack with
    | nil => exact suffClosed_nil _
    | cons a rest =>
      rw [hst] at hs
      exact suffClosed_congr (fun a _ => (traceAt_up s a).symm) (suffClosed_cons.1 hs).2
  · intro j
    rw [traceAt_up]
    exact suffClosed_congr (fun a _ => (traceAt_up s a).symm) (h.trace_suffix j)

theorem inv_applyOp (s : BState V) (h : BuildInv s) (op : Op V) :
    BuildInv (s.applyOp op) := by
  cases op with
  | push v => exact inv_push s h v
  | up => exact inv_up s h

theorem inv_nil : BuildInv (⟨⟨[], []⟩, []⟩ : BState V) := by
  have htr : ∀ j, traceAt (⟨⟨[], []⟩, []⟩ : BState V) j = [] := by
    intro j
    simp [traceAt]
  refine ⟨rfl, ?_, ?_, ?_, ?_, ?_, ?_, ?_, ?_, ?_, ?_⟩
  · intro j a ha
    rw [htr] at ha
    exact absurd ha (List.not_mem_nil a)
  · intro i j
    rw [htr]
    simp only [List.not_mem_nil, false_iff, not_and]
    intro hj
    exact absurd hj (by simp [Tree.len])
  · intro a ha
    exact absurd ha (List.not_mem_nil a)
  · intro a ha
    exact absurd ha (List.not_mem_nil a)
  · intro i hi
    exact absurd hi (by simp [Tree.len])
  · exact List.Pairwise.nil
  · intro j
    rw [htr]
    exact List.Pairwise.nil
  · intro j hj
    exact absurd hj (by simp [Tree.len])
  · exact suffClosed_nil _
  · intro j
    rw [htr]
    exact suffClosed_nil _

theorem buildT_inv (ops : List (Op V)) : BuildInv (buildT ops) := by
  rw [buildT]
  have : ∀ s : BState V, BuildInv s → BuildInv (ops.foldl BState.applyOp s) := by
    induction ops with
    | nil => exact fun s hs => hs
    | cons op ops ih => exact fun s hs => ih _ (inv_applyOp s hs op)
  exact this _ inv_nil

theorem min_parent (s : BState V) (h : BuildInv s) {i j : Nat}
    (hij : i < j) (hj : j < s.tree.len) (hrange : j ≤ i + ndf s.tree i) :
    i ≤ parf s.tree j ∧ parf s.tree j < j := by
  have hmem : i ∈ traceAt s j := (h.mem_trace i j).2 ⟨hj, hij, hrange⟩
  cases htr : traceAt s j with
  | nil =>
    rw [htr] at hmem
    exact absurd hmem (List.not_mem_nil i)
  | cons a rest =>
    have hpar : parf s.tree j = a := by
      rw [h.par_head j hj, htr]
      rfl
    rw [htr] at hmem
    have hsort := h.trace_sorted j
    rw [htr] at hsort
    have haj : a < j := h.trace_lt j a (by rw [htr]; exact List.mem_cons_self a rest)
    have hia : i ≤ a := by
      rcases List.mem_cons.1 hmem with hEq | hm
      · exact le_of_eq hEq
      · have := (List.pairwise_cons.1 hsort).1 i hm
        omega
    rw [hpar]
    exact ⟨hia, haj⟩

theorem trace_trans (s : BState V) (h : BuildInv s) {i j k : Nat}
    (hij : i ∈ traceAt s j) (hjk : j ∈ traceAt s k) : i ∈ traceAt s k := by
  obtain ⟨pre, rest, hsplit⟩ := List.append_of_mem hjk
  have hrest : traceAt s j = rest := h.trace_suffix k pre j rest hsplit
  rw [hsplit]
  rw [hrest] at hij
  exact List.mem_append.2 (Or.inr (List.mem_cons.2 (Or.inr hij)))

theorem laminar (s : BState V) (h : BuildInv s) {i j : Nat}
    (hij : i < j) (hj : j < s.tree.len) (hrange : j ≤ i + ndf s.tree i) :
    j + ndf s.tree j ≤ i + ndf s.tree i := by
  by_cases hd : ndf s.tree j = 0
  · omega
  · have hkl : j + ndf s.tree j < s.tree.len := by
      have := h.range_le j hj
      omega
    have hjk : j ∈ traceAt s (j + ndf s.tree j) :=
      (h.mem_trace _ _).2 ⟨hkl, by omega, le_refl _⟩
    have hij' : i ∈ traceAt s j := (h.mem_trace _ _).2 ⟨hj, hij, hrange⟩
    have hik := (h.mem_trace i _).1 (trace_trans s h hij' hjk)
    omega

theorem parf_eq_of_get {t : Tree V} {j : Nat} {n : Node V} (h : t.get j = some n) :
    parf t j = n.parent := by
  simp [parf, h]

theorem ndf_eq_of_get {t : Tree V} {j : Nat} {n : Node V} (h : t.get j = some n) :
    ndf t j = n.num_descendants := by
  simp [ndf, h]

theorem parent_range (s : BState V) (h : BuildInv s) {j : Nat} (hj : j < s.tree.len)
    (hnr : parf s.tree j ≠ j) :
    parf s.tree j < j ∧ j ≤ parf s.tree j + ndf s.tree (parf s.tree j) := by
  have hph := h.par_head j hj
  cases htr : traceAt s j with
  | nil =>
    rw [htr] at hph
    simp only [List.head?_nil, Option.getD_none] at hph
    exact absurd hph hnr
  | cons a rest =>
    rw [htr] at hph
    simp only [List.head?_cons, Option.getD_some] at hph
    have hmem : a ∈ traceAt s j := by
      rw [htr]
      exact List.mem_cons_self a rest
    have hm := (h.mem_trace a j).1 hmem
    rw [hph]
    exact ⟨hm.2.1, hm.2.2⟩

theorem length_le_of_nodup_lt {l : List Nat} {k : Nat} (hnd : l.Nodup)
    (hlt : ∀ a ∈ l, a < k) : l.length ≤ k := by
  have h1 : l.toFinset ⊆ Finset.range k := by
    intro a ha
    rw [List.mem_toFinset] at ha
    exact Finset.mem_range.2 (hlt a ha)
  have h2 := Finset.card_le_card h1
  rw [Finset.card_range] at h2
  rw [← List.toFinset_card_of_nodup hnd]
  exact h2

theorem trace_length_le (s : BState V) (h : BuildInv s) (id : Nat) :
    (traceAt s id).length ≤ id :=
  length_le_of_nodup_lt (nodup_of_sorted (h.trace_sorted id))
    (fun a ha => h.trace_lt id a ha)

theorem traceAt_oob (s : BState V) (h : BuildInv s) {id : Nat}
    (hid : s.tree.len ≤ id) : traceAt s id = [] := by
  rw [traceAt, List.getD_eq_default]
  rw [h.trace_len]
  exact hid

/-- With enough fuel, the ancestor walk from `id` emits exactly the
construction-time ancestor chain of `id`, nearest ancestor first. -/
theorem parentsAux_eq_trace (s : BState V) (h : BuildInv s) :
    ∀ fuel id, (traceAt s id).length < fuel →
      parentsAux s.tree fuel id
        = (traceAt s id).filterMap fun a => (s.tree.get a).map fun n => (a, n) := by
  intro fuel
  induction fuel with
  | zero =>
    intro id hid
    omega
  | succ fuel ih =>
    intro id hid
    by_cases hidlen : id < s.tree.len
    · obtain ⟨node, hnode⟩ := get_some_of_lt s.tree hidlen
      have hph := h.par_head id hidlen
      rw [parf_eq_of_get hnode] at hph
      cases htr : traceAt s id with
      | nil =>
        rw [htr] at hph
        simp only [List.head?_nil, Option.getD_none] at hph
        have hstep : parentStep s.tree id = none := by
          simp [parentStep, hnode, hph]
        simp [parentsAux, hstep, htr]
      | cons a rest =>
        rw [htr] at hph
        simp only [List.head?_cons, Option.getD_some] at hph
        have hmema : a ∈ traceAt s id := by
          rw [htr]
          exact List.mem_cons_self a rest
        have halt : a < id := h.trace_lt id a hmema
        obtain ⟨na, hna⟩ := get_some_of_lt s.tree (show a < s.tree.len by omega)
        have hstep : parentStep s.tree id = some (a, na) := by
          simp [parentStep, hnode, hph, hna]
          omega
        have hresta : traceAt s a = rest := h.trace_suffix id [] a rest (by rw [htr]; rfl)
        have hlenr : (traceAt s a).length < fuel := by
          rw [hresta]
          rw [htr] at hid
          simp only [List.length_cons] at hid
          omega
        have hihr := ih a hlenr
        rw [hresta] at hihr
        simp only [parentsAux, hstep, htr, List.filterMap_cons, hna, Option.map_some']
        rw [hihr]
    · have hstep : parentStep s.tree id = none := by
        have : s.tree.get id = none := by
          rw [Tree.get, List.getElem?_eq_none]
          exact Nat.le_of_not_lt hidlen
        simp [parentStep, this]
      have htr : traceAt s id = [] := traceAt_oob s h (Nat.le_of_not_lt hidlen)
      simp [parentsAux, hstep, htr]

/-- Claim C5 counterexample: after push(0); push(1), node 0 is a root (its
parent index is itself), yet the ancestor walk `parents(1)` emits it: the
sequence includes the root, contrary to "up to (not including) a root". -/
theorem C5_counterexample :
    parf (build [Op.push 0, Op.push (1 : Nat)]) 0 = 0
      ∧ ((build [Op.push 0, Op.push (1 : Nat)]).parents 1).map Prod.fst = [0] := by
  decide

/-- Claim C5 (amended): on every tree reachable by push/up and any id,
`parents(id)` yields exactly the construction-time ancestor chain of `id` —
one (index, node) pair per generation, starting at the immediate parent,
nearest-first, up to and including the nearest root — never the starting
node itself, and the empty sequence for an out-of-bounds id. -/
theorem C5_parents_chain {V : Type} (ops : List (Op V)) (id : Nat) :
    (build ops).parents id
        = (traceAt (buildT ops) id).filterMap
            (fun a => ((build ops).get a).map fun n => (a, n))
      ∧ id ∉ ((build ops).parents id).map Prod.fst
      ∧ ((build ops).len ≤ id → (build ops).parents id = []) := by
  have h := buildT_inv ops
  have hfuel : (traceAt (buildT ops) id).length < (build ops).len + 1 := by
    by_cases hid : id < (build ops).len
    · have := trace_length_le (buildT ops) h id
      omega
    · rw [traceAt_oob (buildT ops) h (Nat.le_of_not_lt hid)]
      simp
  have hmain : (build ops).parents id
      = (traceAt (buildT ops) id).filterMap
          (fun a => ((build ops).get a).map fun n => (a, n)) :=
    parentsAux_eq_trace (buildT ops) h ((build ops).len + 1) id hfuel
  refine ⟨hmain, ?_, ?_⟩
  · intro hmem
    rw [hmain] at hmem
    obtain ⟨p, hp, hfst⟩ := List.mem_map.1 hmem
    obtain ⟨a, ha, hfa⟩ := List.mem_filterMap.1 hp
    have halt : a < id := h.trace_lt id a ha
    cases hg : (build ops).get a with
    | none =>
      rw [hg] at hfa
      exact absurd hfa (by simp)
    | some n =>
      rw [hg] at hfa
      simp only [Option.map_some', Option.some.injEq] at hfa
      rw [← hfa] at hfst
      simp only at hfst
      omega
  · intro hoob
    rw [hmain, traceAt_oob (buildT ops) h hoob]
    rfl

/-- Claim C5 witness for the amended theorem: an out-of-bounds id on a
one-node tree yields the empty sequence. -/
theorem C5_witness :
    (build [Op.push (0 : Nat)]).len ≤ 5 ∧ (build [Op.push (0 : Nat)]).parents 5 = [] :=
  ⟨by decide, (C5_parents_chain [Op.push (0 : Nat)] 5).2.2 (by decide)⟩

theorem parentsAux_step_none {t : Tree V} {id : Nat} (h : parentStep t id = none)
    (m : Nat) : parentsAux t (m + 1) id = [] := by
  simp [parentsAux, h]

/-- Claim C7: whenever the parent chain from `id` reaches a self-parented
node or leaves the arena within `n` steps, the ancestor walk stabilizes at
fuel `n`: more fuel yields the same finite sequence (so the lazy iteration
never loops forever), its length is below `n` (at most one step per
ancestor), and when `n` fits under the default fuel it is exactly
`parents(id)`. -/
theorem C7_parents_terminate {V : Type} (t : Tree V) (id n : Nat)
    (h : stopsWithin t n id = true) :
    (∀ m, n ≤ m → parentsAux t m id = parentsAux t n id)
      ∧ (parentsAux t n id).length < n
      ∧ (n ≤ t.len + 1 → t.parents id = parentsAux t n id) := by
  induction n generalizing id with
  | zero =>
    rw [stopsWithin] at h
    exact absurd h (by simp)
  | succ n ih =>
    have hnil : parentStep t id = none →
        (∀ m, n + 1 ≤ m → parentsAux t m id = parentsAux t n.succ id)
          ∧ (parentsAux t n.succ id).length < n + 1
          ∧ (n + 1 ≤ t.len + 1 → t.parents id = parentsAux t n.succ id) := by
      intro hstep
      have hz : parentsAux t (n + 1) id = [] := parentsAux_step_none hstep n
      refine ⟨?_, by rw [hz]; simp, ?_⟩
      · intro m hm
        obtain ⟨k, rfl⟩ := Nat.exists_eq_add_of_le (show 1 ≤ m by omega)
        rw [Nat.add_comm 1 k, parentsAux_step_none hstep k, hz]
      · intro hfit
        rw [Tree.parents, parentsAux_step_none hstep t.len, hz]
    rw [stopsWithin] at h
    cases hg : t.get id with
    | none =>
      exact hnil (by simp [parentStep, hg])
    | some node =>
      rw [hg] at h
      simp only [Bool.or_eq_true, decide_eq_true_eq] at h
      by_cases hpar : node.parent = id
      · exact hnil (by simp [parentStep, hg, hpar])
      · have hstop : stopsWithin t n node.parent = true := by
          rcases h with h1 | h2
          · exact absurd h1 hpar
          · exact h2
        cases hgp : t.get node.parent with
        | none =>
          exact hnil (by simp [parentStep, hg, hpar, hgp])
        | some pn =>
          have hstep : parentStep t id = some (node.parent, pn) := by
            simp [parentStep, hg, hpar, hgp]
          obtain ⟨ihstab, ihlen, -⟩ := ih node.parent hstop
          have hsucc : parentsAux t (n + 1) id
              = (node.parent, pn) :: parentsAux t n node.parent := by
            simp [parentsAux, hstep]
          refine ⟨?_, ?_, ?_⟩
          · intro m hm
            obtain ⟨k, rfl⟩ := Nat.exists_eq_add_of_le (show 1 ≤ m by omega)
            rw [Nat.add_comm 1 k]
            have : parentsAux t (k + 1) id
                = (node.parent, pn) :: parentsAux t k node.parent := by
              simp [parentsAux, hstep]
            rw [this, hsucc, ihstab k (by omega)]
          · rw [hsucc]
            simp only [List.length_cons]
            omega
          · intro hfit
            rw [Tree.parents]
            have : parentsAux t (t.len + 1) id
                = (node.parent, pn) :: parentsAux t t.len node.parent := by
              simp [parentsAux, hstep]
            rw [this, hsucc, ihstab t.len (by omega)]

/-- Claim C7 witness: the one-node tree stops within one step from its root,
and the walk is stable and empty. -/
theorem C7_witness :
    stopsWithin (build [Op.push (0 : Nat)]) 1 0 = true
      ∧ parentsAux (build [Op.push (0 : Nat)]) 5 0 = parentsAux (build [Op.push (0 : Nat)]) 1 0
      ∧ (parentsAux (build [Op.push (0 : Nat)]) 1 0).length < 1
      ∧ (build [Op.push (0 : Nat)]).parents 0 = parentsAux (build [Op.push (0 : Nat)]) 1 0 :=
  ⟨by decide,
    (C7_parents_terminate (build [Op.push (0 : Nat)]) 0 1 (by decide)).1 5 (by omega),
    (C7_parents_terminate (build [Op.push (0 : Nat)]) 0 1 (by decide)).2.1,
    (C7_parents_terminate (build [Op.push (0 : Nat)]) 0 1 (by decide)).2.2 (by omega)⟩

theorem range'_split (s m k : Nat) (h : m ≤ k) :
    List.range' s k = List.range' s m ++ List.range' (s + m) (k - m) := by
  have heq := List.range'_append s m (k - m) 1
  rw [Nat.one_mul] at heq
  have hk : k - m + m = k := by omega
  rw [hk] at heq
  exact heq.symm

/-- With enough fuel, the descendant-count jump enumeration starting at any
cursor position `cur` inside `id`'s block — provided every node strictly
between `id` and `cur` has its whole subtree before `cur` — produces exactly
the nodes of `[cur, id + count]` whose parent is `id`. -/
theorem childrenAux_spec (s : BState V) (h : BuildInv s) (id : Nat)
    (hid : id < s.tree.len) :
    ∀ fuel cur, id < cur →
      id + ndf s.tree id + 1 - cur < fuel →
      (∀ p, id < p → p < cur → p + ndf s.tree p < cur) →
      cur ≤ id + ndf s.tree id + 1 →
      childrenAux s.tree (id + ndf s.tree id) fuel cur
        = (List.range' cur (id + ndf s.tree id + 1 - cur)).filterMap
            (fun j => if parf s.tree j = id then (s.tree.get j).map (fun n => (j, n))
              else none) := by
  intro fuel
  induction fuel with
  | zero =>
    intro cur hcur hfuel hclosed hle
    omega
  | succ fuel ih =>
    intro cur hcur hfuel hclosed hle
    by_cases hstop : cur ≤ id + ndf s.tree id
    case neg =>
      have hz : id + ndf s.tree id + 1 - cur = 0 := by omega
      rw [hz]
      simp [childrenAux, hstop]
    case pos =>
      have hmax_lt : id + ndf s.tree id < s.tree.len := by
        have := h.range_le id hid
        omega
      have hcurlen : cur < s.tree.len := by omega
      obtain ⟨ncur, hncur⟩ := get_some_of_lt s.tree hcurlen
      have hndcur : ndf s.tree cur = ncur.num_descendants := ndf_eq_of_get hncur
      have hparcur : parf s.tree cur = id := by
        have hmp := min_parent s h hcur hcurlen (by omega)
        rcases Nat.eq_or_lt_of_le hmp.1 with heq | hlt
        · exact heq.symm
        · exfalso
          have hpr := parent_range s h hcurlen (by omega)
          have := hclosed (parf s.tree cur) hlt hmp.2
          omega
      have hlam : cur + ndf s.tree cur ≤ id + ndf s.tree id :=
        laminar s h hcur hcurlen (by omega)
      have hih := ih (cur + ndf s.tree cur + 1) (by omega) (by omega)
        (by
          intro p hp1 hp2
          by_cases hpc : p < cur
          · have := hclosed p hp1 hpc
            omega
          · by_cases hpe : p = cur
            · subst hpe
              omega
            · have hpc2 : cur < p := by omega
              have hplen : p < s.tree.len := by omega
              have := laminar s h hpc2 hplen (by omega)
              omega)
        (by omega)
      have hunf : childrenAux s.tree (id + ndf s.tree id) (fuel + 1) cur
          = (cur, ncur)
              :: childrenAux s.tree (id + ndf s.tree id) fuel (cur + ncur.num_descendants + 1) := by
        simp [childrenAux, hstop, hncur]
      rw [← hndcur] at hunf
      rw [hunf, hih]
      have hsplit := range'_split cur (ndf s.tree cur + 1) (id + ndf s.tree id + 1 - cur)
        (by omega)
      have he1 : cur + (ndf s.tree cur + 1) = cur + ndf s.tree cur + 1 := by omega
      have he2 : id + ndf s.tree id + 1 - cur - (ndf s.tree cur + 1)
          = id + ndf s.tree id + 1 - (cur + ndf s.tree cur + 1) := by omega
      rw [he1, he2] at hsplit
      rw [hsplit, List.filterMap_append]
      have hnil : (List.range' (cur + 1) (ndf s.tree cur)).filterMap
          (fun j => if parf s.tree j = id then (s.tree.get j).map (fun n => (j, n)) else none)
          = [] := by
        rw [List.filterMap_eq_nil_iff]
        intro j hj
        rw [List.mem_range'_1] at hj
        have hjlen : j < s.tree.len := by omega
        have hmp := min_parent s h (show cur < j by omega) hjlen (by omega)
        rw [if_neg (by omega)]
      have hhead : (List.range' cur (ndf s.tree cur + 1)).filterMap
          (fun j => if parf s.tree j = id then (s.tree.get j).map (fun n => (j, n)) else none)
          = [(cur, ncur)] := by
        rw [List.range'_succ]
        simp [List.filterMap_cons, hparcur, hncur, hnil]
      rw [hhead]
      rfl

/-- Claim C4: on every tree reachable by push/up and any id, the
descendant-count-jump enumeration `children(id)` yields exactly the nodes of
the descendant block `[id+1, id+1+num_descendants)` whose parent index is
`id` — the immediate children in creation (index) order — paired with their
indices; for an out-of-bounds id it is empty. -/
theorem C4_children_eq_filter {V : Type} (ops : List (Op V)) (id : Nat) :
    (build ops).children id = specChildren (build ops) id := by
  have h := buildT_inv ops
  by_cases hid : id < (build ops).len
  · have hid2 : id < (buildT ops).tree.len := hid
    have hrange : id + 1 + ndf (buildT ops).tree id ≤ (buildT ops).tree.len :=
      h.range_le id hid2
    have hspec := childrenAux_spec (buildT ops) h id hid2 ((buildT ops).tree.len + 1)
      (id + 1) (by omega) (by omega) (by intro p hp1 hp2; omega) (by omega)
    have hcount : id + ndf (buildT ops).tree id + 1 - (id + 1) = ndf (buildT ops).tree id := by
      omega
    rw [hcount] at hspec
    rw [Tree.children, specChildren]
    exact hspec
  · have hoob : (build ops).len ≤ id := Nat.le_of_not_lt hid
    have hnd0 : ndf (build ops) id = 0 := ndf_oob (build ops) hoob
    rw [Tree.children, specChildren, hnd0]
    simp only [Nat.add_zero, List.range'_zero, List.filterMap_nil]
    rw [childrenAux]
    rw [if_neg (by omega)]

/-- Claim C1: the spec promises that `descendents(id)` for `id ≥ len()`
returns an empty slice and never panics.  The code's `unwrap_or_default`
shows that intent, but it then evaluates the slice `&nodes[id+1 .. id+1]`
whose end `id+1` exceeds the arena length, which fails Rust's slice range
check: `none` here models that panic, for every tree and every
out-of-bounds id. -/
theorem C1_descendents_oob_panics (t : Tree V) (id : Nat) (h : t.len ≤ id) :
    t.descendents id = none := by
  have hg : t.get id = none := by
    rw [Tree.get, List.getElem?_eq_none]
    exact h
  rw [Tree.descendents, ndf, hg, slice]
  have : ¬(id + 1 ≤ id + 1 + ((none : Option (Node V)).map Node.num_descendants).getD 0
      ∧ id + 1 + ((none : Option (Node V)).map Node.num_descendants).getD 0 ≤ t.nodes.length) := by
    simp only [Option.map_none', Option.getD_none]
    have : t.nodes.length ≤ id := h
    omega
  rw [if_neg this]

/-- Claim C1 witness: the empty tree at id 0 hits the panicking branch. -/
theorem C1_witness :
    Tree.len (V := Nat) ⟨[], []⟩ ≤ 0 ∧ Tree.descendents (V := Nat) ⟨[], []⟩ 0 = none :=
  ⟨Nat.le.refl, C1_descendents_oob_panics ⟨[], []⟩ 0 Nat.le.refl⟩

/-- Tree built by `push(0); push(1)`: arena `[0,1]`, parent stack `[0,1]`
(bottom-to-top, so the list here is `[1, 0]` with head = top). -/
def c2tree : Tree Nat := build [Op.push 0, Op.push 1]

/-- Claim C2: the spec (and the code's own doc comment) say `up()` returns
the new top of the parent stack — the node that is now current — and nothing
once the stack becomes empty.  `Vec::pop` instead returns the popped
previously-current element: on stack `[0, 1]` (bottom-to-top) `up()` returns
`Some(1)` although the new current node is `0`, and a second `up()` returns
`Some(0)` although the stack has become empty (the claim requires `None`). -/
theorem C2_up_returns_popped_not_new_top :
    c2tree.parent_stack = [1, 0]
      ∧ (c2tree.up).2 = some 1
      ∧ ((c2tree.up).1).parent_stack = [0]
      ∧ (((c2tree.up).1).up).2 = some 0
      ∧ ((((c2tree.up).1).up).1).parent_stack = [] := by
  decide

/-- The push/up call sequence of the 19-node, 2-root example forest of
src/tests.rs (`build`). -/
def exOps : List (Op Int) :=
  [.push 0, .push 1, .push 2, .up, .up, .push 3, .push 4, .push 5, .up, .up,
   .push 6, .up, .up, .push 7, .push 8, .push 9, .up, .push 10, .up, .up,
   .push 11, .push 12, .up, .push 13, .up, .up, .up, .push 14, .up, .up,
   .push 15, .push 16, .push 17, .up, .up, .push 18]

/-- Claim C3: in every tree reachable by push/up calls, each node's stored
`num_descendants` equals the number of nodes whose construction-time ancestor
chain (the parent stack snapshot at their push) contains it, and that chain
membership holds exactly for the half-open index range
`[i+1, i+1+num_descendants)`. -/
theorem C3_descendant_count_correct {V : Type} (ops : List (Op V)) (i : Nat)
    (hi : i < (build ops).len) :
    ndf (build ops) i
        = ((Finset.range (build ops).len).filter
            (fun j => i ∈ traceAt (buildT ops) j)).card
      ∧ ∀ j, i ∈ traceAt (buildT ops) j
          ↔ (i + 1 ≤ j ∧ j < i + 1 + ndf (build ops) i) := by
  have h := buildT_inv ops
  have htree : build ops = (buildT ops).tree := rfl
  rw [htree] at hi ⊢
  have hle := h.range_le i hi
  constructor
  · have hset : (Finset.range (buildT ops).tree.len).filter
        (fun j => i ∈ traceAt (buildT ops) j)
        = Finset.Ioc i (i + ndf (buildT ops).tree i) := by
      apply Finset.ext
      intro j
      rw [Finset.mem_filter, Finset.mem_range, Finset.mem_Ioc, h.mem_trace i j]
      omega
    rw [hset, Nat.card_Ioc]
    omega
  · intro j
    rw [h.mem_trace i j]
    omega

/-- Claim C3 witness: the two-node chain push(0); push(1), node 0. -/
theorem C3_witness :
    0 < (build [Op.push 0, Op.push (1 : Nat)]).len
      ∧ (ndf (build [Op.push 0, Op.push (1 : Nat)]) 0
          = ((Finset.range (build [Op.push 0, Op.push (1 : Nat)]).len).filter
              (fun j => 0 ∈ traceAt (buildT [Op.push 0, Op.push (1 : Nat)]) j)).card
        ∧ ∀ j, 0 ∈ traceAt (buildT [Op.push 0, Op.push (1 : Nat)]) j
            ↔ (0 + 1 ≤ j ∧ j < 0 + 1 + ndf (build [Op.push 0, Op.push (1 : Nat)]) 0)) :=
  ⟨by decide, C3_descendant_count_correct [Op.push 0, Op.push (1 : Nat)] 0 (by decide)⟩

/-- Claim C9: in every tree reachable by push/up calls, a valid id's
descendant block `[id+1, id+1+num_descendants)` lies inside the arena, so the
slice taken by `descendents` is in bounds and the out-of-bounds branch of the
range check is unreachable. -/
theorem C9_descendents_in_bounds {V : Type} (ops : List (Op V)) (id : Nat)
    (hid : id < (build ops).len) :
    id + 1 + ndf (build ops) id ≤ (build ops).len
      ∧ (build ops).descendents id
          = some (((build ops).nodes.drop (id + 1)).take (ndf (build ops) id)) := by
  have h := buildT_inv ops
  have hle : id + 1 + ndf (build ops) id ≤ (build ops).len := h.range_le id hid
  refine ⟨hle, ?_⟩
  rw [Tree.descendents, slice, if_pos ⟨by omega, hle⟩]
  have harg : id + 1 + ndf (build ops) id - (id + 1) = ndf (build ops) id := by omega
  rw [harg]

/-- Claim C9 witness: the two-node chain, id 0. -/
theorem C9_witness :
    0 < (build [Op.push 0, Op.push (1 : Nat)]).len
      ∧ (0 + 1 + ndf (build [Op.push 0, Op.push (1 : Nat)]) 0
          ≤ (build [Op.push 0, Op.push (1 : Nat)]).len
        ∧ (build [Op.push 0, Op.push (1 : Nat)]).descendents 0
            = some (((build [Op.push 0, Op.push (1 : Nat)]).nodes.drop (0 + 1)).take
                (ndf (build [Op.push 0, Op.push (1 : Nat)]) 0))) :=
  ⟨by decide, C9_descendents_in_bounds [Op.push 0, Op.push (1 : Nat)] 0 (by decide)⟩

/-- Claim C6: on every reachable tree, push(v) returns `new_index = len()`,
appends a node with the claimed parent (stack top, else itself) and count 0,
increments each open ancestor's count by exactly 1, and pushes `new_index`
onto the parent stack. -/
theorem C6_push_spec {V : Type} (ops : List (Op V)) (v : V) :
    ((build ops).push v).2 = (build ops).len
      ∧ ((build ops).push v).1.len = (build ops).len + 1
      ∧ ((build ops).push v).1.get (build ops).len
          = some ⟨v, (build ops).parent_stack.head?.getD (build ops).len, 0⟩
      ∧ (∀ a ∈ (build ops).parent_stack,
          ndf ((build ops).push v).1 a = ndf (build ops) a + 1)
      ∧ ((build ops).push v).1.parent_stack
          = (build ops).len :: (build ops).parent_stack := by
  have h := buildT_inv ops
  have hnd : (build ops).parent_stack.Nodup := nodup_of_sorted h.stack_sorted
  have hnotmem : (build ops).len ∉ (build ops).parent_stack := fun hm => by
    have hcontra : (build ops).len < (build ops).len := h.stack_lt _ hm
    omega
  refine ⟨push_snd _ v, push_len _ v, ?_, ?_, push_stack _ v⟩
  · rw [push_get_new, countNat_eq_zero_of_not_mem hnotmem, addDesc_zero]
    rfl
  · intro a ha
    have hlt : a < (build ops).len := h.stack_lt a ha
    rw [ndf_push_lt _ v hlt, countNat_eq_ite hnd, if_pos ha]

/-- Claim C6 witness: pushing onto the two-node chain, checking the ancestor
at stack entry 1 (the current node). -/
theorem C6_witness :
    (((build [Op.push 0, Op.push (1 : Nat)]).push 2).2
          = (build [Op.push 0, Op.push (1 : Nat)]).len
        ∧ ((build [Op.push 0, Op.push (1 : Nat)]).push 2).1.len
          = (build [Op.push 0, Op.push (1 : Nat)]).len + 1
        ∧ ((build [Op.push 0, Op.push (1 : Nat)]).push 2).1.get
              (build [Op.push 0, Op.push (1 : Nat)]).len
          = some ⟨2, (build [Op.push 0, Op.push (1 : Nat)]).parent_stack.head?.getD
              (build [Op.push 0, Op.push (1 : Nat)]).len, 0⟩
        ∧ (∀ a ∈ (build [Op.push 0, Op.push (1 : Nat)]).parent_stack,
            ndf ((build [Op.push 0, Op.push (1 : Nat)]).push 2).1 a
              = ndf (build [Op.push 0, Op.push (1 : Nat)]) a + 1)
        ∧ ((build [Op.push 0, Op.push (1 : Nat)]).push 2).1.parent_stack
          = (build [Op.push 0, Op.push (1 : Nat)]).len
              :: (build [Op.push 0, Op.push (1 : Nat)]).parent_stack)
      ∧ ndf ((build [Op.push 0, Op.push (1 : Nat)]).push 2).1 1
          = ndf (build [Op.push 0, Op.push (1 : Nat)]) 1 + 1 :=
  ⟨C6_push_spec [Op.push 0, Op.push (1 : Nat)] 2,
    (C6_push_spec [Op.push 0, Op.push (1 : Nat)] 2).2.2.2.1 1 (by decide)⟩

/-- Claim C10: on every reachable tree, push(v) leaves every pre-existing
node's value and parent unchanged, and changes `num_descendants` by exactly 1
for the nodes on the parent stack and by 0 for all others. -/
theorem C10_push_frame {V : Type} (ops : List (Op V)) (v : V) (j : Nat)
    (hj : j < (build ops).len) :
    (((build ops).push v).1.get j).map Node.value = ((build ops).get j).map Node.value
      ∧ parf ((build ops).push v).1 j = parf (build ops) j
      ∧ ndf ((build ops).push v).1 j
          = ndf (build ops) j + (if j ∈ (build ops).parent_stack then 1 else 0) := by
  have h := buildT_inv ops
  have hnd : (build ops).parent_stack.Nodup := nodup_of_sorted h.stack_sorted
  refine ⟨value_push_lt _ v hj, parf_push_lt _ v hj, ?_⟩
  rw [ndf_push_lt _ v hj, countNat_eq_ite hnd]

/-- Claim C10 witness: pushing onto the two-node chain, framing node 0. -/
theorem C10_witness :
    0 < (build [Op.push 0, Op.push (1 : Nat)]).len
      ∧ ((((build [Op.push 0, Op.push (1 : Nat)]).push 2).1.get 0).map Node.value
          = ((build [Op.push 0, Op.push (1 : Nat)]).get 0).map Node.value
        ∧ parf ((build [Op.push 0, Op.push (1 : Nat)]).push 2).1 0
          = parf (build [Op.push 0, Op.push (1 : Nat)]) 0
        ∧ ndf ((build [Op.push 0, Op.push (1 : Nat)]).push 2).1 0
          = ndf (build [Op.push 0, Op.push (1 : Nat)]) 0
              + (if 0 ∈ (build [Op.push 0, Op.push (1 : Nat)]).parent_stack then 1 else 0)) :=
  ⟨by decide, C10_push_frame [Op.push 0, Op.push (1 : Nat)] 2 0 (by decide)⟩

/-- Claim C8: the documented 19-node, 2-root example forest has `len() = 19`,
descendant-count sequence `[14,1,0,3,1,0,0,6,2,0,0,2,0,0,0,3,1,0,0]`,
`children(7)` values `[8, 11]`, `parents(12)` values `[11, 7, 0]` nearest
first, and `children(19)` empty. -/
theorem C8_example_scenario :
    (build exOps).len = 19
      ∧ (build exOps).nodes.map Node.num_descendants
          = [14, 1, 0, 3, 1, 0, 0, 6, 2, 0, 0, 2, 0, 0, 0, 3, 1, 0, 0]
      ∧ ((build exOps).children 7).map (fun p => p.2.value) = [8, 11]
      ∧ ((build exOps).parents 12).map (fun p => p.2.value) = [11, 7, 0]
      ∧ (build exOps).children 19 = [] := by
  refine ⟨rfl, rfl, rfl, rfl, rfl⟩

end Espalier
